import Mathlib

/-!
Verification development for the document vector store
(src/api/core/vector_store.py).

The store's three Python dicts are modelled as insertion-ordered
association lists, numeric scores as rationals, and the external
collaborators (the embedding provider, the markdown renderer and the
filesystem) as explicit function or value parameters, following the
spec's description of them as opaque collaborators.  The chunking loop
of DocumentVectorStore._chunk_text is modelled with an explicit fuel
parameter because the source loop does not terminate for all argument
values; a termination theorem below recovers totality for the
parameter range the store actually uses.
-/

set_option maxHeartbeats 1000000
set_option maxRecDepth 100000

/-- Python index adjustment shared by slicing and str.rfind: a negative
index counts from the end of the sequence, and the result is clamped to
the range 0..len. -/
def pyAdjust (len : Nat) (i : Int) : Nat :=
  if i < 0 then ((len : Int) + i).toNat else min i.toNat len

/-- Python slice text[a:b] over the characters of the text. -/
def pySlice (cs : List Char) (a b : Int) : List Char :=
  (cs.take (pyAdjust cs.length b)).drop (pyAdjust cs.length a)

/-- Python text.rfind('.', a, b): the greatest adjusted index i with
a <= i < b whose character is a period, or -1 when there is none. -/
def pyRfindDot (cs : List Char) (a b : Int) : Int :=
  let lo := pyAdjust cs.length a
  let hi := pyAdjust cs.length b
  match ((List.range hi).filter
      (fun i => decide (lo ≤ i) && (cs.getD i ' ' == '.'))).getLast? with
  | some i => (i : Int)
  | Option.none => -1

/-- Python text.strip(): drop leading and trailing whitespace. -/
def pyStrip (cs : List Char) : List Char :=
  ((cs.dropWhile Char.isWhitespace).reverse.dropWhile Char.isWhitespace).reverse

/-- Helper of pyWords: scan the characters, collecting the current word
in reverse in acc and emitting it at every whitespace run boundary. -/
def pyWordsAux : List Char → List Char → List (List Char)
  | [], acc => if acc.isEmpty then [] else [acc.reverse]
  | c :: rest, acc =>
    if c.isWhitespace then
      (if acc.isEmpty then pyWordsAux rest []
       else acc.reverse :: pyWordsAux rest [])
    else pyWordsAux rest (c :: acc)

/-- Python text.split() as used by rerank_results: split on whitespace
runs, dropping empty pieces. -/
def pyWords (s : String) : List String :=
  (pyWordsAux s.data []).map String.mk

/-- Python text.lower(), character by character. -/
def pyLower (s : String) : String := String.mk (s.data.map Char.toLower)

/-- The window end computed by one iteration of the loop in
DocumentVectorStore._chunk_text: the raw end start + chunk_size, moved
back to just after the last period of the window when that period lies
within the final 100 characters of the window and the raw end falls
short of the end of the text. -/
def chunkEnd (text : List Char) (chunk_size : Int) (start : Int) : Int :=
  let e := start + chunk_size
  if e < (text.length : Int) then
    let sentence_end := pyRfindDot text start e
    if sentence_end > start + chunk_size - 100 then sentence_end + 1 else e
  else e

/-- The while loop of DocumentVectorStore._chunk_text, with an explicit
fuel bound because the source loop does not terminate for every
argument combination.  Besides the emitted chunks the model also
records the trace of (start, end) windows, which the source computes as
local variables; Option.none means the fuel ran out before the loop
exited. -/
def chunkLoop (text : List Char) (chunk_size overlap : Int) :
    Nat → Int → List (List Char) → List (Int × Int) →
      Option (List (List Char) × List (Int × Int))
  | 0, _, _, _ => Option.none
  | fuel + 1, start, chunks, windows =>
    if start < (text.length : Int) then
      let e := chunkEnd text chunk_size start
      let chunk := pyStrip (pySlice text start e)
      chunkLoop text chunk_size overlap fuel (e - overlap)
        (if chunk.isEmpty then chunks else chunks ++ [chunk])
        (windows ++ [(start, e)])
    else some (chunks, windows)

/-- The chunking loop, started as _chunk_text starts it, exits after
finitely many iterations. -/
def ChunkLoopTerminates (text : List Char) (chunk_size overlap : Int) : Prop :=
  ∃ n, (chunkLoop text chunk_size overlap n 0 [] []).isSome

/-- DocumentVectorStore._chunk_text over a list of characters: a text
no longer than chunk_size is returned whole as a single chunk,
otherwise the windowing loop runs.  Fuel text.length + 1 is an upper
bound on the number of loop iterations whenever the loop terminates at
all in the parameter range proved below (the window start strictly
increases from 0); when the source loop would not terminate the model
returns []. -/
def chunkTextL (text : List Char) (chunk_size overlap : Int) : List (List Char) :=
  if (text.length : Int) ≤ chunk_size then [text]
  else
    match chunkLoop text chunk_size overlap (text.length + 1) 0 [] [] with
    | some r => r.1
    | Option.none => []

/-- The (start, end) window trace of the chunking loop, empty for short
texts that are returned whole. -/
def chunkTraceL (text : List Char) (chunk_size overlap : Int) : List (Int × Int) :=
  if (text.length : Int) ≤ chunk_size then []
  else
    match chunkLoop text chunk_size overlap (text.length + 1) 0 [] [] with
    | some r => r.2
    | Option.none => []

/-- DocumentVectorStore._chunk_text on strings. -/
def chunkText (text : String) (chunk_size overlap : Int) : List String :=
  (chunkTextL text.data chunk_size overlap).map (fun l => String.mk l)

/-! ## Insertion-ordered dictionaries

Python dicts preserve insertion order: assignment to an existing key
replaces the value in place, assignment to a new key appends, and del
removes the entry.  They are modelled as association lists. -/

/-- A Python dict with string keys, as an insertion-ordered association
list. -/
abbrev Dict (β : Type) : Type := List (String × β)

/-- The keys of a dict, in insertion order (Python: iterating the dict). -/
def Dict.keys {β : Type} (d : Dict β) : List String := d.map Prod.fst

/-- Lookup d[k]: the value of the first entry with key k. -/
def Dict.find {β : Type} : Dict β → String → Option β
  | [], _ => Option.none
  | p :: t, k => if p.1 = k then some p.2 else Dict.find t k

/-- Python: k in d. -/
def Dict.contains {β : Type} (d : Dict β) (k : String) : Bool :=
  (Dict.find d k).isSome

/-- Python assignment d[k] = v: replace the value in place when the key
exists, otherwise append a new entry. -/
def Dict.insert {β : Type} (d : Dict β) (k : String) (v : β) : Dict β :=
  if Dict.contains d k then d.map (fun p => if p.1 = k then (k, v) else p)
  else d ++ [(k, v)]

/-- Python del d[k]: remove the entry with key k. -/
def Dict.erase {β : Type} (d : Dict β) (k : String) : Dict β :=
  d.filter (fun p => decide (p.1 ≠ k))

/-- The entries satisfying a predicate, in order (a Python dict
comprehension or filtering loop over the items). -/
def Dict.filterD {β : Type} (d : Dict β) (f : String × β → Bool) : Dict β :=
  d.filter f

/-- Python truthiness of a dict: empty means falsy. -/
def Dict.isEmptyD {β : Type} (d : Dict β) : Bool := d.isEmpty

/-- Real Python dicts never hold a key twice; the association-list
model records that as well-formedness. -/
def Dict.NodupKeys {β : Type} (d : Dict β) : Prop := (Dict.keys d).Nodup

/-! ## Data model of the store -/

/-- One entry of DocumentVectorStore.documents: the per-chunk metadata
record written by add_document. -/
structure Chunk where
  file_path : String
  chunk_index : Nat
  content : String
  length : Nat
deriving DecidableEq, Repr

/-- One entry of DocumentVectorStore.file_metadata. -/
structure FileMeta where
  hash : String
  chunk_count : Nat
  processed_at : String
deriving DecidableEq, Repr

/-- The in-memory state of a DocumentVectorStore: the three
insertion-ordered maps.  The embedding vector type E is a parameter;
the store never inspects vectors, it only passes them to the external
similarity function. -/
structure Store (E : Type) where
  embeddings : Dict E
  documents : Dict Chunk
  file_metadata : Dict FileMeta
deriving DecidableEq

/-- The chunk identifier f-string f"{resolved_path}#{i}". -/
def chunkId (path : String) (i : Nat) : String :=
  path ++ "#" ++ toString i

/-- The pair of per-chunk writes of add_document's processing loop:
documents[chunk_id] = metadata record and embeddings[chunk_id] =
embedding, for one (index, chunk) pair of enumerate(chunks). -/
def insertChunkPair {E : Type} (getEmb : String → E) (path : String)
    (de : Dict Chunk × Dict E) (ic : Nat × String) : Dict Chunk × Dict E :=
  let cid := chunkId path ic.1
  (Dict.insert de.1 cid ⟨path, ic.1, ic.2, ic.2.length⟩,
   Dict.insert de.2 cid (getEmb ic.2))

/-- The content add_document chunks: the raw file text, rendered to
plain text first when the path names a markdown file. -/
def renderedContent (render : String → String)
    (resolved_path rawContent : String) : String :=
  if resolved_path.endsWith ".md" then render rawContent else rawContent

/-- The old_chunk_ids list of add_document and remove_document: the
identifiers of the stored chunks owned by the given path, in insertion
order. -/
def oldChunkIds (documents : Dict Chunk) (resolved_path : String) :
    List String :=
  Dict.keys (Dict.filterD documents
    (fun p => p.2.file_path == resolved_path))

/-- The skip test of add_document: not forced, file metadata present
for the path, and its stored hash equals the current fingerprint. -/
abbrev SkipCheck {E : Type} (s : Store E)
    (resolved_path current_hash : String) (force_reprocess : Bool) : Prop :=
  force_reprocess = false ∧
    Option.map FileMeta.hash (Dict.find s.file_metadata resolved_path)
      = some current_hash

/-- The store after the mutating part of add_document ran to the point
where the first upTo chunks of the processing loop have been written:
the old chunks of the path are removed from both maps and the chunk
pairs written so far are inserted.  file_metadata is still untouched. -/
def addDocumentMidState {E : Type} (getEmb : String → E) (s : Store E)
    (resolved_path : String) (chunks : List String) (upTo : Nat) : Store E :=
  let old_chunk_ids := oldChunkIds s.documents resolved_path
  let docs1 := old_chunk_ids.foldl Dict.erase s.documents
  let embs1 := old_chunk_ids.foldl Dict.erase s.embeddings
  let de := (chunks.enum.take upTo).foldl
    (insertChunkPair getEmb resolved_path) (docs1, embs1)
  { embeddings := de.2, documents := de.1,
    file_metadata := s.file_metadata }

/-- The store after the full mutating part of add_document: every chunk
pair written and file_metadata upserted. -/
def addDocumentSuccessState {E : Type} (getEmb : String → E) (s : Store E)
    (resolved_path current_hash mtime : String) (chunks : List String) :
    Store E :=
  { addDocumentMidState getEmb s resolved_path chunks chunks.length with
    file_metadata := Dict.insert s.file_metadata resolved_path
      ⟨current_hash, chunks.length, mtime⟩ }

/-- DocumentVectorStore.add_document.  The filesystem and the external
collaborators appear as parameters: resolved_path is the result of
_resolve_file_path, current_hash the fingerprint computed by
_get_file_hash, rawContent the text read from the file, mtime the stat
timestamp, getEmb the embedding provider (total, since _get_embedding
catches every provider error and substitutes a fallback vector) and
render the markdown-to-plain-text rendering.  Persisting (_save_data)
only performs I/O and is not part of the in-memory state. -/
def addDocument {E : Type} (getEmb : String → E) (render : String → String)
    (s : Store E) (resolved_path current_hash rawContent mtime : String)
    (force_reprocess : Bool) : Bool × Store E :=
  if SkipCheck s resolved_path current_hash force_reprocess then
    (false, s)
  else
    (true, addDocumentSuccessState getEmb s resolved_path current_hash mtime
      (chunkText (renderedContent render resolved_path rawContent) 1000 200))

/-- Where an exception interrupts the try block of add_document.
duringRead: raised while reading, rendering or chunking the file,
before any mutation.  afterChunk k: raised in the processing loop after
k chunks were written (the old chunks are already removed).
beforeMeta: raised at the stat call, after every chunk was written but
before file_metadata is updated. -/
inductive RaisePoint where
  | duringRead : RaisePoint
  | afterChunk : Nat → RaisePoint
  | beforeMeta : RaisePoint
deriving DecidableEq

/-- add_document when an exception is raised at the given point of the
try block (Option.none: no exception, the normal path).  The except
handler catches everything and returns False, leaving whatever partial
mutation had happened. -/
def addDocumentExc {E : Type} (getEmb : String → E) (render : String → String)
    (s : Store E) (resolved_path current_hash rawContent mtime : String)
    (force_reprocess : Bool) (raise : Option RaisePoint) : Bool × Store E :=
  if SkipCheck s resolved_path current_hash force_reprocess then
    (false, s)
  else
    let chunks :=
      chunkText (renderedContent render resolved_path rawContent) 1000 200
    match raise with
    | some RaisePoint.duringRead => (false, s)
    | some (RaisePoint.afterChunk k) =>
      (false, addDocumentMidState getEmb s resolved_path chunks k)
    | some RaisePoint.beforeMeta =>
      (false, addDocumentMidState getEmb s resolved_path chunks chunks.length)
    | Option.none =>
      (true, addDocumentSuccessState getEmb s resolved_path current_hash mtime
        chunks)

/-- DocumentVectorStore.remove_document; file_path is already the
resolved path. -/
def removeDocument {E : Type} (s : Store E) (file_path : String) :
    Bool × Store E :=
  if Dict.contains s.file_metadata file_path = false then (false, s)
  else
    let chunk_ids_to_remove := oldChunkIds s.documents file_path
    (true,
     { embeddings := chunk_ids_to_remove.foldl Dict.erase s.embeddings,
       documents := chunk_ids_to_remove.foldl Dict.erase s.documents,
       file_metadata := Dict.erase s.file_metadata file_path })

/-! ## Stable descending sort

list.sort(key=..., reverse=True) in Python is a stable sort: elements
are ordered by descending key and elements with equal keys keep their
original relative order.  Insertion sort below places a before b
exactly when key b <= key a, which realises the same ordering; a
stable sort for a total preorder is unique, so this models the source's
sort calls. -/

/-- Insert an element into a list sorted by descending key, before the
first element whose key is not larger. -/
def insertDescBy {α : Type} (key : α → ℚ) (a : α) : List α → List α
  | [] => [a]
  | b :: t => if key b ≤ key a then a :: b :: t else b :: insertDescBy key a t

/-- Stable sort by descending key. -/
def sortDescBy {α : Type} (key : α → ℚ) : List α → List α
  | [] => []
  | a :: t => insertDescBy key a (sortDescBy key t)

/-! ## Search -/

/-- One result record of DocumentVectorStore.search: a copy of the
chunk-metadata record with the similarity score and the chunk
identifier added. -/
structure SearchResult where
  file_path : String
  chunk_index : Nat
  content : String
  length : Nat
  similarity : ℚ
  chunk_id : String
deriving DecidableEq, Repr

/-- The candidate chunk identifiers of search: when a file scope was
resolved to target_file_path, the identifiers whose record is owned by
that path, in insertion order; otherwise all identifiers. -/
def searchCandidateIds {E : Type} (s : Store E)
    (target_file_path : Option String) : List String :=
  match target_file_path with
  | some tp =>
    Dict.keys (Dict.filterD s.documents (fun p => p.2.file_path == tp))
  | Option.none => Dict.keys s.documents

/-- The similarities list of search: for each candidate identifier that
has an embedding, the pair of the identifier and the cosine similarity
of the query embedding with the chunk embedding.  The similarity
function is the external cosine_similarity collaborator. -/
def searchSims {E : Type} (cosSim : E → E → ℚ) (query_embedding : E)
    (s : Store E) (candidate_ids : List String) : List (String × ℚ) :=
  candidate_ids.filterMap (fun cid =>
    (Dict.find s.embeddings cid).map (fun e => (cid, cosSim query_embedding e)))

/-- The result record built from one (chunk_id, similarity) pair:
documents[chunk_id].copy() plus the similarity and chunk_id fields.
The lookup cannot miss in the source because the candidates were drawn
from documents, which is unchanged since; the model uses an empty
default record for the impossible miss. -/
def mkResult {E : Type} (s : Store E) (p : String × ℚ) : SearchResult :=
  let ch := (Dict.find s.documents p.1).getD ⟨"", 0, "", 0⟩
  ⟨ch.file_path, ch.chunk_index, ch.content, ch.length, p.2, p.1⟩

/-- Tail of DocumentVectorStore.search after candidate collection:
empty candidates give an empty result, otherwise the similarities are
sorted descending (stable) and the first top_k become result records. -/
def searchFrom {E : Type} (cosSim : E → E → ℚ) (query_embedding : E)
    (s : Store E) (candidate_ids : List String) (top_k : Nat) :
    List SearchResult :=
  if candidate_ids.isEmpty then []
  else
    ((sortDescBy (fun x => x.2)
        (searchSims cosSim query_embedding s candidate_ids)).take top_k).map
      (mkResult s)

/-- DocumentVectorStore.search.  scope models the file_path/file_name
arguments after resolution: Option.none when no scope was given,
some Option.none when _resolve_file_path raised (file not found), and
some (some tp) when it resolved to tp. -/
def search {E : Type} (getEmb : String → E) (cosSim : E → E → ℚ)
    (s : Store E) (query : String) (scope : Option (Option String))
    (top_k : Nat) : List SearchResult :=
  if Dict.isEmptyD s.embeddings then []
  else
    let query_embedding := getEmb query
    match scope with
    | some Option.none => []
    | some (some tp) =>
      searchFrom cosSim query_embedding s (searchCandidateIds s (some tp)) top_k
    | Option.none =>
      searchFrom cosSim query_embedding s (searchCandidateIds s Option.none) top_k

/-! ## Rerank -/

/-- A result record after rerank_results added the combined and keyword
scores. -/
structure RerankedResult where
  base : SearchResult
  combined_score : ℚ
  keyword_score : ℚ
deriving DecidableEq, Repr

/-- The annotation rerank_results applies to one result: the lexical
overlap of the lower-cased whitespace-tokenized query and content word
sets, guarded against an empty query word set, blended 0.7/0.3 with
the semantic similarity. -/
def rerankAnnotate (query_words : Finset String) (r : SearchResult) :
    RerankedResult :=
  let content_words := (pyWords (pyLower r.content)).toFinset
  let keyword_overlap := (query_words ∩ content_words).card
  let keyword_score : ℚ :=
    if query_words ≠ ∅ then (keyword_overlap : ℚ) / (query_words.card : ℚ)
    else 0
  ⟨r, (7 / 10 : ℚ) * r.similarity + (3 / 10 : ℚ) * keyword_score,
   keyword_score⟩

/-- DocumentVectorStore.rerank_results: annotate every result, then
sort by descending combined score (stable).  In the source the sort key
falls back to the similarity for records without a combined score, but
the preceding loop has given every record one. -/
def rerank_results (results : List SearchResult) (query : String) :
    List RerankedResult :=
  let query_words := (pyWords (pyLower query)).toFinset
  sortDescBy (fun x => x.combined_score)
    (results.map (rerankAnnotate query_words))

/-! ## Object-heap model for result construction

search returns copies of the stored chunk records and rerank_results
later mutates those copies in place.  To express that this mutation
cannot reach the store, Python object references are modelled
explicitly: a heap maps addresses to record objects, the store's
documents map holds addresses, dict.copy() allocates a fresh address,
and rerank's field assignments update the heap in place. -/

/-- A Python dict object as handled by search and rerank_results: the
four chunk fields plus the fields the two functions may add later. -/
structure PyObj where
  file_path : String
  chunk_index : Nat
  content : String
  length : Nat
  similarity : Option ℚ
  chunk_id : Option String
  combined_score : Option ℚ
  keyword_score : Option ℚ
deriving DecidableEq

/-- An object heap: allocated cells and the next fresh address. -/
structure Heap where
  cells : List (Nat × PyObj)
  next : Nat

/-- Dereference an address. -/
def Heap.get : Heap → Nat → Option PyObj
  | ⟨[], _⟩, _ => Option.none
  | ⟨p :: t, n⟩, a => if p.1 = a then some p.2 else Heap.get ⟨t, n⟩ a

/-- Overwrite the object at an (allocated) address in place. -/
def Heap.set (h : Heap) (a : Nat) (o : PyObj) : Heap :=
  ⟨h.cells.map (fun p => if p.1 = a then (a, o) else p), h.next⟩

/-- Allocate a fresh cell (what dict literals and dict.copy() do). -/
def Heap.alloc (h : Heap) (o : PyObj) : Nat × Heap :=
  (h.next, ⟨h.cells ++ [(h.next, o)], h.next + 1⟩)

/-- The result-building loop at the end of search, over the heap:
for each (chunk_id, similarity) pair, look up the stored record's
address in documents, copy the object into a fresh cell, and set the
similarity and chunk_id fields of the copy.  documentRefs models
self.documents as a map from chunk identifiers to object addresses. -/
def buildResults (documentRefs : Dict Nat) (sims : List (String × ℚ))
    (h : Heap) : List Nat × Heap :=
  sims.foldl (fun acc p =>
    match Dict.find documentRefs p.1 with
    | Option.none => acc
    | some addr =>
      match Heap.get acc.2 addr with
      | Option.none => acc
      | some obj =>
        let copy := { obj with similarity := some p.2, chunk_id := some p.1 }
        let ah := Heap.alloc acc.2 copy
        (acc.1 ++ [ah.1], ah.2)) ([], h)

/-- One iteration of the annotation loop of rerank_results over the
heap: the result object at the given address is mutated in place,
receiving its combined_score and keyword_score fields. -/
def rerankStep (query_words : Finset String) (hh : Heap) (a : Nat) : Heap :=
  match Heap.get hh a with
  | Option.none => hh
  | some obj =>
    let content_words := (pyWords (pyLower obj.content)).toFinset
    let keyword_overlap := (query_words ∩ content_words).card
    let keyword_score : ℚ :=
      if query_words ≠ ∅ then (keyword_overlap : ℚ) / (query_words.card : ℚ)
      else 0
    let combined_score :=
      (7 / 10 : ℚ) * (obj.similarity.getD 0) + (3 / 10 : ℚ) * keyword_score
    Heap.set hh a { obj with combined_score := some combined_score,
                             keyword_score := some keyword_score }

/-- The annotation loop of rerank_results over the heap. -/
def rerankHeapWrites (query_words : Finset String) (results : List Nat)
    (h : Heap) : Heap :=
  results.foldl (rerankStep query_words) h

/-! ## Dictionary lemmas -/

theorem Dict.erase_cons {β : Type} (p : String × β) (t : Dict β) (k : String) :
    Dict.erase (p :: t) k =
      if p.1 = k then Dict.erase t k else p :: Dict.erase t k := by
  by_cases h : p.1 = k <;> simp [Dict.erase, List.filter_cons, h]

theorem Dict.find_erase {β : Type} (d : Dict β) (k k' : String) :
    Dict.find (Dict.erase d k) k'
      = if k' = k then Option.none else Dict.find d k' := by
  induction d with
  | nil => by_cases h : k' = k <;> simp [Dict.erase, Dict.find, h]
  | cons p t ih =>
    rw [Dict.erase_cons]
    by_cases hpk : p.1 = k
    · rw [if_pos hpk, ih]
      by_cases hk : k' = k
      · rw [if_pos hk, if_pos hk]
      · have hpk' : ¬ p.1 = k' := fun he => hk (hpk ▸ he ▸ rfl)
        rw [if_neg hk, if_neg hk, Dict.find, if_neg hpk']
    · rw [if_neg hpk]
      by_cases hpk' : p.1 = k'
      · have hk : ¬ k' = k := fun he => hpk (he ▸ hpk')
        rw [Dict.find, if_pos hpk', if_neg hk, Dict.find, if_pos hpk']
      · rw [Dict.find, if_neg hpk', ih, Dict.find, if_neg hpk']

theorem Dict.find_append {β : Type} (d1 d2 : Dict β) (k : String) :
    Dict.find (d1 ++ d2) k
      = match Dict.find d1 k with
        | some v => some v
        | Option.none => Dict.find d2 k := by
  induction d1 with
  | nil => simp [Dict.find]
  | cons p t ih =>
    by_cases hpk : p.1 = k
    · simp [Dict.find, hpk]
    · simp only [List.cons_append, Dict.find, if_neg hpk]
      exact ih

theorem Dict.contains_cons {β : Type} (p : String × β) (t : Dict β)
    (k : String) :
    Dict.contains (p :: t) k = if p.1 = k then true else Dict.contains t k := by
  by_cases hpk : p.1 = k <;> simp [Dict.contains, Dict.find, hpk]

theorem Dict.find_replaceMap {β : Type} (d : Dict β) (k k' : String) (v : β) :
    Dict.find (d.map (fun p => if p.1 = k then (k, v) else p)) k'
      = if k' = k then
          (if Dict.contains d k then some v else Option.none)
        else Dict.find d k' := by
  induction d with
  | nil => by_cases h : k' = k <;> simp [Dict.find, Dict.contains, h]
  | cons p t ih =>
    rw [List.map_cons, Dict.contains_cons]
    by_cases hpk : p.1 = k
    · rw [if_pos hpk, if_pos hpk]
      by_cases hk : k' = k
      · subst hk
        simp [Dict.find]
      · have hkk' : ¬ k = k' := fun he => hk he.symm
        have hpk' : ¬ p.1 = k' := fun he => hk (he ▸ hpk)
        simp [Dict.find, ih, hk, hkk', hpk']
    · rw [if_neg hpk, if_neg hpk]
      by_cases hpk' : p.1 = k'
      · have hk' : ¬ k' = k := fun he => hpk (he ▸ hpk')
        simp [Dict.find, hpk', hk']
      · simp [Dict.find, hpk', ih]

theorem Dict.mem_keys_iff {β : Type} (d : Dict β) (k : String) :
    k ∈ Dict.keys d ↔ ∃ v, (k, v) ∈ d := by
  simp only [Dict.keys, List.mem_map]
  constructor
  · rintro ⟨p, hp, rfl⟩
    exact ⟨p.2, hp⟩
  · rintro ⟨v, hv⟩
    exact ⟨(k, v), hv, rfl⟩

theorem Dict.find_mem {β : Type} {d : Dict β} {k : String} {v : β}
    (h : Dict.find d k = some v) : (k, v) ∈ d := by
  induction d with
  | nil => simp [Dict.find] at h
  | cons p t ih =>
    simp only [Dict.find] at h
    by_cases hpk : p.1 = k
    · rw [if_pos hpk] at h
      injection h with hv
      rw [List.mem_cons]
      exact Or.inl (by rw [← hpk, ← hv])
    · rw [if_neg hpk] at h
      exact List.mem_cons_of_mem _ (ih h)

theorem Dict.find_isSome_of_mem_keys {β : Type} {d : Dict β} {k : String}
    (h : k ∈ Dict.keys d) : (Dict.find d k).isSome := by
  induction d with
  | nil => simp [Dict.keys] at h
  | cons p t ih =>
    simp only [Dict.find]
    by_cases hpk : p.1 = k
    · simp [hpk]
    · rw [if_neg hpk]
      rcases (Dict.mem_keys_iff _ _).1 h with ⟨v, hv⟩
      rcases List.mem_cons.1 hv with h1 | h2
      · exact absurd (congrArg Prod.fst h1.symm) hpk
      · exact ih ((Dict.mem_keys_iff _ _).2 ⟨v, h2⟩)

theorem Dict.mem_keys_of_find {β : Type} {d : Dict β} {k : String} {v : β}
    (h : Dict.find d k = some v) : k ∈ Dict.keys d :=
  (Dict.mem_keys_iff _ _).2 ⟨v, Dict.find_mem h⟩

theorem Dict.mem_keys_iff_isSome {β : Type} (d : Dict β) (k : String) :
    k ∈ Dict.keys d ↔ (Dict.find d k).isSome := by
  constructor
  · exact Dict.find_isSome_of_mem_keys
  · intro h
    rcases Option.isSome_iff_exists.1 h with ⟨v, hv⟩
    exact Dict.mem_keys_of_find hv

theorem Dict.find_insert_self {β : Type} (d : Dict β) (k : String) (v : β) :
    Dict.find (Dict.insert d k v) k = some v := by
  rw [Dict.insert]
  by_cases hc : Dict.contains d k
  · rw [if_pos hc, Dict.find_replaceMap, if_pos rfl, if_pos hc]
  · rw [if_neg hc, Dict.find_append]
    have hnone : Dict.find d k = Option.none := by
      rw [Dict.contains] at hc
      exact Option.not_isSome_iff_eq_none.1 (by simpa using hc)
    rw [hnone]
    simp [Dict.find]

theorem Dict.find_insert_ne {β : Type} (d : Dict β) (k k' : String) (v : β)
    (h : k' ≠ k) : Dict.find (Dict.insert d k v) k' = Dict.find d k' := by
  rw [Dict.insert]
  by_cases hc : Dict.contains d k
  · rw [if_pos hc, Dict.find_replaceMap, if_neg h]
  · rw [if_neg hc, Dict.find_append]
    have hkk' : ¬ k = k' := fun he => h he.symm
    cases hfd : Dict.find d k' with
    | some w => rfl
    | none => simp [Dict.find, hkk']

theorem Dict.mem_keys_insert {β : Type} (d : Dict β) (k k' : String) (v : β) :
    k' ∈ Dict.keys (Dict.insert d k v) ↔ k' ∈ Dict.keys d ∨ k' = k := by
  constructor
  · intro h
    by_cases hk : k' = k
    · exact Or.inr hk
    · left
      rw [Dict.mem_keys_iff_isSome] at h ⊢
      rwa [Dict.find_insert_ne d k k' v hk] at h
  · intro h
    rw [Dict.mem_keys_iff_isSome]
    rcases h with h | rfl
    · by_cases hk : k' = k
      · subst hk
        rw [Dict.find_insert_self]
        rfl
      · rw [Dict.find_insert_ne d k k' v hk]
        rwa [Dict.mem_keys_iff_isSome] at h
    · rw [Dict.find_insert_self]
      rfl

theorem Dict.find_foldl_erase {β : Type} (ids : List String) (d : Dict β)
    (k : String) :
    Dict.find (ids.foldl Dict.erase d) k
      = if k ∈ ids then Option.none else Dict.find d k := by
  induction ids generalizing d with
  | nil => simp
  | cons i t ih =>
    rw [List.foldl_cons, ih]
    by_cases hk : k ∈ t
    · simp [hk]
    · rw [if_neg hk, Dict.find_erase]
      by_cases hki : k = i
      · simp [hki]
      · simp [hki, List.mem_cons, hk]

theorem Dict.mem_keys_foldl_erase {β : Type} (ids : List String) (d : Dict β)
    (k : String) :
    k ∈ Dict.keys (ids.foldl Dict.erase d)
      ↔ k ∈ Dict.keys d ∧ k ∉ ids := by
  rw [Dict.mem_keys_iff_isSome, Dict.find_foldl_erase,
    Dict.mem_keys_iff_isSome]
  by_cases hk : k ∈ ids <;> simp [hk]

/-! ## Sort lemmas -/

theorem insertDescBy_perm {α : Type} (key : α → ℚ) (a : α) (l : List α) :
    (insertDescBy key a l).Perm (a :: l) := by
  induction l with
  | nil => exact List.Perm.refl _
  | cons b t ih =>
    rw [insertDescBy]
    by_cases h : key b ≤ key a
    · rw [if_pos h]
    · rw [if_neg h]
      exact (ih.cons b).trans (List.Perm.swap a b t)

theorem sortDescBy_perm {α : Type} (key : α → ℚ) (l : List α) :
    (sortDescBy key l).Perm l := by
  induction l with
  | nil => exact List.Perm.refl _
  | cons a t ih =>
    rw [sortDescBy]
    exact (insertDescBy_perm key a _).trans (ih.cons a)

theorem insertDescBy_pairwise {α : Type} (key : α → ℚ) (a : α) (l : List α)
    (hl : l.Pairwise (fun x y => key y ≤ key x)) :
    (insertDescBy key a l).Pairwise (fun x y => key y ≤ key x) := by
  induction l with
  | nil => simp [insertDescBy]
  | cons b t ih =>
    rw [insertDescBy]
    rw [List.pairwise_cons] at hl
    by_cases h : key b ≤ key a
    · rw [if_pos h, List.pairwise_cons]
      refine ⟨?_, List.pairwise_cons.2 hl⟩
      intro x hx
      rcases List.mem_cons.1 hx with rfl | hx
      · exact h
      · exact le_trans (hl.1 x hx) h
    · rw [if_neg h, List.pairwise_cons]
      refine ⟨?_, ih hl.2⟩
      intro x hx
      have hx' := (insertDescBy_perm key a t).mem_iff.1 hx
      rcases List.mem_cons.1 hx' with rfl | hx'
      · exact le_of_lt (lt_of_not_le h)
      · exact hl.1 x hx'

theorem sortDescBy_pairwise {α : Type} (key : α → ℚ) (l : List α) :
    (sortDescBy key l).Pairwise (fun x y => key y ≤ key x) := by
  induction l with
  | nil => simp [sortDescBy]
  | cons a t ih => exact insertDescBy_pairwise key a _ ih

theorem insertDescBy_filter {α : Type} (key : α → ℚ) (v : ℚ) (a : α)
    (l : List α) :
    (insertDescBy key a l).filter (fun x => decide (key x = v))
      = (a :: l).filter (fun x => decide (key x = v)) := by
  induction l with
  | nil => rfl
  | cons b t ih =>
    rw [insertDescBy]
    by_cases h : key b ≤ key a
    · rw [if_pos h]
    · rw [if_neg h]
      have hab : key a < key b := lt_of_not_le h
      by_cases ha : key a = v
      · have hb : ¬ key b = v := by
          intro hb
          rw [ha, hb] at hab
          exact lt_irrefl v hab
        simp [List.filter_cons, ha, hb, ih]
      · simp [List.filter_cons, ha, ih]

theorem sortDescBy_filter {α : Type} (key : α → ℚ) (v : ℚ) (l : List α) :
    (sortDescBy key l).filter (fun x => decide (key x = v))
      = l.filter (fun x => decide (key x = v)) := by
  induction l with
  | nil => rfl
  | cons a t ih =>
    rw [sortDescBy, insertDescBy_filter]
    simp [List.filter_cons, ih]

theorem sortDescBy_of_pairwise {α : Type} (key : α → ℚ) (l : List α)
    (hl : l.Pairwise (fun x y => key y ≤ key x)) : sortDescBy key l = l := by
  induction l with
  | nil => rfl
  | cons a t ih =>
    rw [List.pairwise_cons] at hl
    rw [sortDescBy, ih hl.2]
    cases t with
    | nil => rfl
    | cons b t' =>
      rw [insertDescBy, if_pos (hl.1 b (List.mem_cons_self b t'))]

/-! ## Lemmas about the chunk-insertion fold of add_document -/

theorem foldl_insertChunkPair_cons {E : Type} (g : String → E) (p : String)
    (ic : Nat × String) (t : List (Nat × String)) (d : Dict Chunk)
    (e : Dict E) :
    (ic :: t).foldl (insertChunkPair g p) (d, e)
      = t.foldl (insertChunkPair g p)
          (Dict.insert d (chunkId p ic.1) ⟨p, ic.1, ic.2, ic.2.length⟩,
           Dict.insert e (chunkId p ic.1) (g ic.2)) := rfl

theorem foldl_insertChunkPair_find_notMem {E : Type} (g : String → E)
    (p : String) (l : List (Nat × String)) (d : Dict Chunk) (e : Dict E)
    (k : String) (hk : k ∉ l.map (fun ic => chunkId p ic.1)) :
    Dict.find (l.foldl (insertChunkPair g p) (d, e)).1 k = Dict.find d k
    ∧ Dict.find (l.foldl (insertChunkPair g p) (d, e)).2 k = Dict.find e k := by
  induction l generalizing d e with
  | nil => exact ⟨rfl, rfl⟩
  | cons ic t ih =>
    rw [List.map_cons, List.mem_cons] at hk
    have h1 : k ≠ chunkId p ic.1 := fun he => hk (Or.inl he)
    have h2 : k ∉ t.map (fun ic => chunkId p ic.1) := fun hm => hk (Or.inr hm)
    rw [foldl_insertChunkPair_cons]
    rcases ih _ _ h2 with ⟨ha, hb⟩
    rw [ha, hb, Dict.find_insert_ne _ _ _ _ h1, Dict.find_insert_ne _ _ _ _ h1]
    exact ⟨rfl, rfl⟩

theorem foldl_insertChunkPair_find_owner {E : Type} (g : String → E)
    (p : String) (l : List (Nat × String)) (d : Dict Chunk) (e : Dict E)
    (k : String) (ch : Chunk)
    (hk : Dict.find (l.foldl (insertChunkPair g p) (d, e)).1 k = some ch) :
    (k ∈ l.map (fun ic => chunkId p ic.1) ∧ ch.file_path = p)
      ∨ Dict.find d k = some ch := by
  induction l generalizing d e with
  | nil => exact Or.inr hk
  | cons ic t ih =>
    rw [foldl_insertChunkPair_cons] at hk
    rcases ih _ _ hk with ⟨hm, hp⟩ | hf
    · exact Or.inl ⟨List.mem_cons_of_mem _ hm, hp⟩
    · by_cases hkc : k = chunkId p ic.1
      · subst hkc
        rw [Dict.find_insert_self] at hf
        injection hf with hch
        refine Or.inl ⟨List.mem_cons_self _ _, ?_⟩
        rw [← hch]
      · rw [Dict.find_insert_ne _ _ _ _ hkc] at hf
        exact Or.inr hf

theorem foldl_insertChunkPair_find_mem {E : Type} (g : String → E)
    (p : String) (l : List (Nat × String)) (d : Dict Chunk) (e : Dict E)
    (k : String) (hk : k ∈ l.map (fun ic => chunkId p ic.1)) :
    ∃ ch, Dict.find (l.foldl (insertChunkPair g p) (d, e)).1 k = some ch
      ∧ ch.file_path = p := by
  induction l generalizing d e with
  | nil => simp at hk
  | cons ic t ih =>
    rw [List.map_cons, List.mem_cons] at hk
    rw [foldl_insertChunkPair_cons]
    by_cases hmem : k ∈ t.map (fun ic => chunkId p ic.1)
    · exact ih _ _ hmem
    · rcases hk with h1 | h2
      · subst h1
        rcases foldl_insertChunkPair_find_notMem g p t _ _ _ hmem with ⟨ha, _⟩
        rw [ha, Dict.find_insert_self]
        exact ⟨_, rfl, rfl⟩
      · exact absurd h2 hmem

theorem foldl_insertChunkPair_mem_keys {E : Type} (g : String → E)
    (p : String) (l : List (Nat × String)) (d : Dict Chunk) (e : Dict E)
    (k : String) :
    (k ∈ Dict.keys (l.foldl (insertChunkPair g p) (d, e)).1
      ↔ k ∈ Dict.keys d ∨ k ∈ l.map (fun ic => chunkId p ic.1))
    ∧ (k ∈ Dict.keys (l.foldl (insertChunkPair g p) (d, e)).2
      ↔ k ∈ Dict.keys e ∨ k ∈ l.map (fun ic => chunkId p ic.1)) := by
  induction l generalizing d e with
  | nil => simp
  | cons ic t ih =>
    rw [foldl_insertChunkPair_cons]
    rcases ih (Dict.insert d (chunkId p ic.1) ⟨p, ic.1, ic.2, ic.2.length⟩)
      (Dict.insert e (chunkId p ic.1) (g ic.2)) with ⟨ha, hb⟩
    constructor
    · rw [ha, Dict.mem_keys_insert, List.map_cons, List.mem_cons]
      tauto
    · rw [hb, Dict.mem_keys_insert, List.map_cons, List.mem_cons]
      tauto

theorem Dict.find_eq_of_mem_nodup {β : Type} {d : Dict β} {k : String} {v : β}
    (hnd : Dict.NodupKeys d) (hm : (k, v) ∈ d) : Dict.find d k = some v := by
  induction d with
  | nil => simp at hm
  | cons p t ih =>
    rw [Dict.NodupKeys, Dict.keys, List.map_cons, List.nodup_cons] at hnd
    rcases List.mem_cons.1 hm with h1 | h2
    · rw [Dict.find, ← h1]
      simp
    · have hpk : ¬ p.1 = k := by
        intro he
        apply hnd.1
        rw [he]
        exact (Dict.mem_keys_iff _ _).2 ⟨v, h2⟩
      rw [Dict.find, if_neg hpk]
      exact ih hnd.2 h2

/-! ## Helper lemmas about enumeration and ownership -/

theorem enum_take_length {α : Type} (l : List α) : l.enum.take l.length = l.enum := by
  apply List.take_of_length_le
  rw [List.enum_length]

theorem chunkId_mem_enum_map (p : String) (chunks : List String) (i : Nat)
    (hi : i < chunks.length) :
    chunkId p i ∈ chunks.enum.map (fun ic => chunkId p ic.1) := by
  refine List.mem_map.2 ⟨(i, chunks[i]), ?_, rfl⟩
  rw [List.mk_mem_enum_iff_getElem?]
  exact List.getElem?_eq_getElem hi

theorem chunkId_enum_map_elim (p : String) (chunks : List String) (k : String)
    (hk : k ∈ chunks.enum.map (fun ic => chunkId p ic.1)) :
    ∃ i, i < chunks.length ∧ k = chunkId p i := by
  rcases List.mem_map.1 hk with ⟨ic, hic, rfl⟩
  refine ⟨ic.1, ?_, rfl⟩
  have hg := List.mem_enum_iff_getElem?.1 hic
  rcases List.getElem?_eq_some.1 hg with ⟨h, _⟩
  exact h

theorem mem_oldChunkIds_of_find {documents : Dict Chunk} {p cid : String}
    {ch : Chunk} (hf : Dict.find documents cid = some ch)
    (hp : ch.file_path = p) : cid ∈ oldChunkIds documents p := by
  apply (Dict.mem_keys_iff _ _).2
  refine ⟨ch, List.mem_filter.2 ⟨Dict.find_mem hf, ?_⟩⟩
  simp [hp]

theorem mem_filterD_owner {documents : Dict Chunk} {p cid : String}
    {ch : Chunk}
    (h : (cid, ch) ∈ Dict.filterD documents (fun q => q.2.file_path == p)) :
    (cid, ch) ∈ documents ∧ ch.file_path = p := by
  rcases List.mem_filter.1 h with ⟨hm, hq⟩
  refine ⟨hm, ?_⟩
  simpa using hq

/-! ## Claim C1: the two chunk maps stay in lockstep -/

/-- The lockstep invariant of the data model: the chunk-metadata map
and the embedding map hold exactly the same chunk identifiers. -/
def keysLockstep {E : Type} (s : Store E) : Prop :=
  ∀ k, k ∈ Dict.keys s.documents ↔ k ∈ Dict.keys s.embeddings

theorem keysLockstep_midState {E : Type} (getEmb : String → E) (s : Store E)
    (rp : String) (chunks : List String) (upTo : Nat)
    (hs : keysLockstep s) :
    keysLockstep (addDocumentMidState getEmb s rp chunks upTo) := by
  intro k
  simp only [addDocumentMidState]
  rw [(foldl_insertChunkPair_mem_keys getEmb rp _ _ _ k).1,
    (foldl_insertChunkPair_mem_keys getEmb rp _ _ _ k).2,
    Dict.mem_keys_foldl_erase, Dict.mem_keys_foldl_erase, hs k]

theorem keysLockstep_successState {E : Type} (getEmb : String → E)
    (s : Store E) (rp chash mt : String) (chunks : List String)
    (hs : keysLockstep s) :
    keysLockstep (addDocumentSuccessState getEmb s rp chash mt chunks) := by
  intro k
  show k ∈ Dict.keys (addDocumentMidState getEmb s rp chunks chunks.length).documents
    ↔ k ∈ Dict.keys (addDocumentMidState getEmb s rp chunks chunks.length).embeddings
  exact keysLockstep_midState getEmb s rp chunks chunks.length hs k

/-- C1.  Lockstep invariant: if the chunk-metadata map and the
embedding map hold the same set of chunk identifiers, then they still
do after add_document — whatever the path taken: skip, success, or an
exception raised at any point of the try block and swallowed by the
except handler (the partially-mutated mid-states erase the old chunks
from both maps with the same identifier list and insert each new chunk
into both maps in tandem) — and after remove_document.  search and
rerank_results do not appear because they take the store read-only and
return fresh result records: they are modelled as pure functions that
produce no store at all. -/
theorem lockstep_preserved {E : Type} (getEmb : String → E)
    (render : String → String) (s : Store E)
    (rp chash rc mt fp : String) (force : Bool)
    (hs : keysLockstep s) :
    keysLockstep (addDocument getEmb render s rp chash rc mt force).2
    ∧ (∀ raise, keysLockstep
        (addDocumentExc getEmb render s rp chash rc mt force raise).2)
    ∧ keysLockstep (removeDocument s fp).2 := by
  refine ⟨?_, ?_, ?_⟩
  · rw [addDocument]
    by_cases hc : SkipCheck s rp chash force
    · rw [if_pos hc]
      exact hs
    · rw [if_neg hc]
      exact keysLockstep_successState getEmb s rp chash mt _ hs
  · intro raise
    rw [addDocumentExc]
    by_cases hc : SkipCheck s rp chash force
    · rw [if_pos hc]
      exact hs
    · rw [if_neg hc]
      cases raise with
      | none => exact keysLockstep_successState getEmb s rp chash mt _ hs
      | some pt =>
        cases pt with
        | duringRead => exact hs
        | afterChunk k => exact keysLockstep_midState getEmb s rp _ k hs
        | beforeMeta => exact keysLockstep_midState getEmb s rp _ _ hs
  · rw [removeDocument]
    by_cases hc : Dict.contains s.file_metadata fp = false
    · rw [if_pos hc]
      exact hs
    · rw [if_neg hc]
      intro k
      show k ∈ Dict.keys ((oldChunkIds s.documents fp).foldl Dict.erase s.documents)
        ↔ k ∈ Dict.keys ((oldChunkIds s.documents fp).foldl Dict.erase s.embeddings)
      rw [Dict.mem_keys_foldl_erase, Dict.mem_keys_foldl_erase, hs k]

/-- Concrete store used by several witnesses: one file "a" with one
chunk, both maps holding exactly the key "a#0". -/
def storeW : Store ℚ :=
  { embeddings := [("a#0", (1 : ℚ))],
    documents := [("a#0", ⟨"a", 0, "old text", 8⟩)],
    file_metadata := [("a", ⟨"h1", 1, "t0"⟩)] }

theorem lockstep_preserved_witness :
    keysLockstep (addDocument (fun _ => (2 : ℚ)) id storeW "a" "h2" "new" "t1"
      false).2
    ∧ keysLockstep (addDocumentExc (fun _ => (2 : ℚ)) id storeW "a" "h2" "new"
      "t1" false (some (RaisePoint.afterChunk 0))).2
    ∧ keysLockstep (removeDocument storeW "a").2 :=
  ⟨(lockstep_preserved (fun _ => (2 : ℚ)) id storeW "a" "h2" "new" "t1" "a"
      false (fun _ => Iff.rfl)).1,
   (lockstep_preserved (fun _ => (2 : ℚ)) id storeW "a" "h2" "new" "t1" "a"
      false (fun _ => Iff.rfl)).2.1 (some (RaisePoint.afterChunk 0)),
   (lockstep_preserved (fun _ => (2 : ℚ)) id storeW "a" "h2" "new" "t1" "a"
      false (fun _ => Iff.rfl)).2.2⟩

/-! ## Claim C3: skipping an unchanged file is a no-op -/

theorem addDocument_skip {E : Type} (getEmb : String → E)
    (render : String → String) (s : Store E) (rp chash rc mt : String)
    (h : Option.map FileMeta.hash (Dict.find s.file_metadata rp)
      = some chash) :
    addDocument getEmb render s rp chash rc mt false = (false, s) := by
  rw [addDocument, if_pos ⟨rfl, h⟩]

theorem addDocument_not_skip {E : Type} (getEmb : String → E)
    (render : String → String) (s : Store E) (rp chash rc mt : String)
    (force : Bool) (h : ¬ SkipCheck s rp chash force) :
    addDocument getEmb render s rp chash rc mt force
      = (true, addDocumentSuccessState getEmb s rp chash mt
          (chunkText (renderedContent render rp rc) 1000 200)) := by
  rw [addDocument, if_neg h]

theorem successState_file_metadata {E : Type} (getEmb : String → E)
    (s : Store E) (rp chash mt : String) (chunks : List String) :
    (addDocumentSuccessState getEmb s rp chash mt chunks).file_metadata
      = Dict.insert s.file_metadata rp ⟨chash, chunks.length, mt⟩ := rfl

/-- C3.  Skip no-op and idempotence: when the store holds file metadata
for the path whose stored hash equals the current fingerprint,
add_document with force_reprocess false returns False and leaves the
store untouched; and whatever one call of add_document did, an
immediately following call for the same path with the same fingerprint
and content and force_reprocess false is such a skip. -/
theorem ingest_skip_noop {E : Type} (getEmb : String → E)
    (render : String → String) (s : Store E) (rp rc mt : String)
    (meta : FileMeta)
    (hfind : Dict.find s.file_metadata rp = some meta) :
    addDocument getEmb render s rp meta.hash rc mt false = (false, s)
    ∧ ∀ chash mt' force r1 s1,
        addDocument getEmb render s rp chash rc mt force = (r1, s1) →
        addDocument getEmb render s1 rp chash rc mt' false = (false, s1) := by
  constructor
  · refine addDocument_skip getEmb render s rp meta.hash rc mt ?_
    rw [hfind]
    rfl
  · intro chash mt' force r1 s1 heq
    by_cases hc : SkipCheck s rp chash force
    · rcases hc with ⟨hf, hh⟩
      subst hf
      rw [addDocument_skip getEmb render s rp chash rc mt hh] at heq
      injection heq with h1 h2
      subst h2
      exact addDocument_skip getEmb render s rp chash rc mt' hh
    · rw [addDocument_not_skip getEmb render s rp chash rc mt force hc] at heq
      injection heq with h1 h2
      subst h2
      refine addDocument_skip getEmb render _ rp chash rc mt' ?_
      rw [successState_file_metadata, Dict.find_insert_self]
      rfl

theorem ingest_skip_noop_witness :
    addDocument (fun _ => (2 : ℚ)) id storeW "a" "h1" "new" "t1" false
      = (false, storeW)
    ∧ addDocument (fun _ => (2 : ℚ)) id
        (addDocumentSuccessState (fun _ => (2 : ℚ)) storeW "a" "h2" "t1"
          (chunkText (renderedContent id "a" "new") 1000 200)) "a" "h2" "new"
        "t2" false
      = (false, addDocumentSuccessState (fun _ => (2 : ℚ)) storeW "a" "h2" "t1"
          (chunkText (renderedContent id "a" "new") 1000 200)) :=
  ⟨(ingest_skip_noop (fun _ => (2 : ℚ)) id storeW "a" "new" "t1"
      ⟨"h1", 1, "t0"⟩ rfl).1,
   (ingest_skip_noop (fun _ => (2 : ℚ)) id storeW "a" "new" "t1"
      ⟨"h1", 1, "t0"⟩ rfl).2 "h2" "t2" false true
     (addDocumentSuccessState (fun _ => (2 : ℚ)) storeW "a" "h2" "t1"
       (chunkText (renderedContent id "a" "new") 1000 200))
     (addDocument_not_skip (fun _ => (2 : ℚ)) id storeW "a" "h2" "new" "t1"
       false (by decide))⟩

/-! ## Claim C2: re-ingestion fully replaces a path's chunks -/

theorem midState_documents {E : Type} (getEmb : String → E) (s : Store E)
    (rp : String) (chunks : List String) (upTo : Nat) :
    (addDocumentMidState getEmb s rp chunks upTo).documents
      = ((chunks.enum.take upTo).foldl (insertChunkPair getEmb rp)
          ((oldChunkIds s.documents rp).foldl Dict.erase s.documents,
           (oldChunkIds s.documents rp).foldl Dict.erase s.embeddings)).1 := rfl

theorem midState_embeddings {E : Type} (getEmb : String → E) (s : Store E)
    (rp : String) (chunks : List String) (upTo : Nat) :
    (addDocumentMidState getEmb s rp chunks upTo).embeddings
      = ((chunks.enum.take upTo).foldl (insertChunkPair getEmb rp)
          ((oldChunkIds s.documents rp).foldl Dict.erase s.documents,
           (oldChunkIds s.documents rp).foldl Dict.erase s.embeddings)).2 := rfl

theorem successState_documents {E : Type} (getEmb : String → E) (s : Store E)
    (rp chash mt : String) (chunks : List String) :
    (addDocumentSuccessState getEmb s rp chash mt chunks).documents
      = (chunks.enum.foldl (insertChunkPair getEmb rp)
          ((oldChunkIds s.documents rp).foldl Dict.erase s.documents,
           (oldChunkIds s.documents rp).foldl Dict.erase s.embeddings)).1 := by
  rw [show (addDocumentSuccessState getEmb s rp chash mt chunks).documents
      = (addDocumentMidState getEmb s rp chunks chunks.length).documents
      from rfl,
    midState_documents, enum_take_length]

theorem successState_embeddings {E : Type} (getEmb : String → E) (s : Store E)
    (rp chash mt : String) (chunks : List String) :
    (addDocumentSuccessState getEmb s rp chash mt chunks).embeddings
      = (chunks.enum.foldl (insertChunkPair getEmb rp)
          ((oldChunkIds s.documents rp).foldl Dict.erase s.documents,
           (oldChunkIds s.documents rp).foldl Dict.erase s.embeddings)).2 := by
  rw [show (addDocumentSuccessState getEmb s rp chash mt chunks).embeddings
      = (addDocumentMidState getEmb s rp chunks chunks.length).embeddings
      from rfl,
    midState_embeddings, enum_take_length]

/-- C2.  Full replacement: when add_document returns True for a path,
afterwards the chunk identifiers owned by that path in the
chunk-metadata map are exactly path#0 .. path#(n-1) for n the number of
chunks of the current content, each present with the path as owner, and
every chunk identifier previously owned by the path that is not among
the new identifiers is gone from both the chunk-metadata map and the
embedding map. -/
theorem add_document_full_replace {E : Type} (getEmb : String → E)
    (render : String → String) (s : Store E) (rp chash rc mt : String)
    (force : Bool) (r1 : Bool) (s1 : Store E)
    (heq : addDocument getEmb render s rp chash rc mt force = (r1, s1))
    (hr : r1 = true) :
    let n := (chunkText (renderedContent render rp rc) 1000 200).length
    (∀ cid ch, Dict.find s1.documents cid = some ch → ch.file_path = rp →
       ∃ i, i < n ∧ cid = chunkId rp i)
    ∧ (∀ i, i < n →
        ∃ ch, Dict.find s1.documents (chunkId rp i) = some ch
          ∧ ch.file_path = rp)
    ∧ (∀ cid ch, Dict.find s.documents cid = some ch → ch.file_path = rp →
        (∀ i, i < n → cid ≠ chunkId rp i) →
        Dict.find s1.documents cid = Option.none
        ∧ Dict.find s1.embeddings cid = Option.none) := by
  intro n
  by_cases hc : SkipCheck s rp chash force
  · rcases hc with ⟨hf, hh⟩
    subst hf
    rw [addDocument_skip getEmb render s rp chash rc mt hh] at heq
    injection heq with h1 h2
    rw [← h1] at hr
    exact absurd hr (by simp)
  · rw [addDocument_not_skip getEmb render s rp chash rc mt force hc] at heq
    injection heq with h1 h2
    subst h2
    set chunks := chunkText (renderedContent render rp rc) 1000 200 with hch
    refine ⟨?_, ?_, ?_⟩
    · intro cid ch hfind hp
      rw [successState_documents] at hfind
      rcases foldl_insertChunkPair_find_owner getEmb rp _ _ _ _ _ hfind with
        ⟨hm, _⟩ | hold
      · exact chunkId_enum_map_elim rp chunks cid hm
      · rw [Dict.find_foldl_erase] at hold
        by_cases hmem : cid ∈ oldChunkIds s.documents rp
        · rw [if_pos hmem] at hold
          exact absurd hold (by simp)
        · rw [if_neg hmem] at hold
          exact absurd (mem_oldChunkIds_of_find hold hp) hmem
    · intro i hi
      rw [successState_documents]
      exact foldl_insertChunkPair_find_mem getEmb rp _ _ _ _
        (chunkId_mem_enum_map rp chunks i hi)
    · intro cid ch hfind hp hnot
      have hmem : cid ∈ oldChunkIds s.documents rp :=
        mem_oldChunkIds_of_find hfind hp
      have hnew : cid ∉ chunks.enum.map (fun ic => chunkId rp ic.1) := by
        intro hin
        rcases chunkId_enum_map_elim rp chunks cid hin with ⟨i, hi, rfl⟩
        exact hnot i hi rfl
      rcases foldl_insertChunkPair_find_notMem getEmb rp _ _ _ _ hnew with
        ⟨hd, he⟩
      constructor
      · rw [successState_documents, hd, Dict.find_foldl_erase, if_pos hmem]
      · rw [successState_embeddings, he, Dict.find_foldl_erase, if_pos hmem]

theorem add_document_full_replace_witness :
    ∃ ch, Dict.find (addDocumentSuccessState (fun _ => (2 : ℚ)) storeW "a"
        "h2" "t1" (chunkText (renderedContent id "a" "new") 1000 200)).documents
        (chunkId "a" 0) = some ch ∧ ch.file_path = "a" :=
  (add_document_full_replace (fun _ => (2 : ℚ)) id storeW "a" "h2" "new" "t1"
      false true _
      (addDocument_not_skip (fun _ => (2 : ℚ)) id storeW "a" "h2" "new" "t1"
        false (by decide)) rfl).2.1 0 (by decide)

/-! ## Claim C9: a failure inside add_document looks like a skip -/

/-- C9.  Any exception raised inside the try block of add_document
(after the fingerprint check) is caught and the call returns False, the
same value an unchanged-file skip returns; the store can be left
partially mutated, so a False return does not imply the store is
untouched.  The second conjunct exhibits this concretely: an exception
after zero chunks of the processing loop leaves a store that differs
both from the original store and from the store a successful run
produces. -/
theorem addDocument_exception_returns_false :
    (∀ (E : Type) (getEmb : String → E) (render : String → String)
       (s : Store E) (rp chash rc mt : String) (force : Bool)
       (raise : Option RaisePoint), raise ≠ Option.none →
       (addDocumentExc getEmb render s rp chash rc mt force raise).1 = false)
    ∧ (addDocumentExc (fun _ => (2 : ℚ)) id storeW "a" "h2" "new" "t1" false
        (some (RaisePoint.afterChunk 0))).2.documents ≠ storeW.documents
    ∧ (addDocumentExc (fun _ => (2 : ℚ)) id storeW "a" "h2" "new" "t1" false
        (some (RaisePoint.afterChunk 0))).2
      ≠ (addDocumentExc (fun _ => (2 : ℚ)) id storeW "a" "h2" "new" "t1" false
        Option.none).2 := by
  refine ⟨?_, by decide, by decide⟩
  intro E getEmb render s rp chash rc mt force raise hr
  cases raise with
  | none => exact absurd rfl hr
  | some pt =>
    rw [addDocumentExc]
    by_cases hc : SkipCheck s rp chash force
    · rw [if_pos hc]
    · rw [if_neg hc]
      cases pt <;> rfl

theorem addDocument_exception_returns_false_witness :
    (addDocumentExc (fun _ => (2 : ℚ)) id storeW "a" "h2" "new" "t1" false
      (some RaisePoint.duringRead)).1 = false :=
  addDocument_exception_returns_false.1 ℚ (fun _ => (2 : ℚ)) id storeW "a"
    "h2" "new" "t1" false (some RaisePoint.duringRead)
    (Option.some_ne_none _)

/-! ## Claims C4 and C5: search -/

theorem searchFrom_eq {E : Type} (cosSim : E → E → ℚ) (qe : E) (s : Store E)
    (cands : List String) (k : Nat) :
    searchFrom cosSim qe s cands k
      = ((sortDescBy (fun x => x.2) (searchSims cosSim qe s cands)).take
          k).map (mkResult s) := by
  rw [searchFrom]
  by_cases hc : cands.isEmpty
  · rw [if_pos hc]
    rw [List.isEmpty_iff] at hc
    rw [hc]
    simp [searchSims, sortDescBy]
  · rw [if_neg hc]

theorem search_unscoped_eq {E : Type} (getEmb : String → E)
    (cosSim : E → E → ℚ) (s : Store E) (q : String) (k : Nat)
    (he : ¬ Dict.isEmptyD s.embeddings = true) :
    search getEmb cosSim s q Option.none k
      = searchFrom cosSim (getEmb q) s (searchCandidateIds s Option.none) k := by
  rw [search, if_neg he]

theorem search_scoped_eq {E : Type} (getEmb : String → E)
    (cosSim : E → E → ℚ) (s : Store E) (q tp : String) (k : Nat)
    (he : ¬ Dict.isEmptyD s.embeddings = true) :
    search getEmb cosSim s q (some (some tp)) k
      = searchFrom cosSim (getEmb q) s (searchCandidateIds s (some tp)) k := by
  rw [search, if_neg he]

theorem search_fail_eq {E : Type} (getEmb : String → E)
    (cosSim : E → E → ℚ) (s : Store E) (q : String) (k : Nat) :
    search getEmb cosSim s q (some Option.none) k = [] := by
  rw [search]
  by_cases he : Dict.isEmptyD s.embeddings = true
  · rw [if_pos he]
  · rw [if_neg he]

theorem searchSims_mem {E : Type} (cosSim : E → E → ℚ) (qe : E) (s : Store E)
    (cands : List String) (pr : String × ℚ)
    (h : pr ∈ searchSims cosSim qe s cands) : pr.1 ∈ cands := by
  rcases List.mem_filterMap.1 h with ⟨cid, hcid, hmap⟩
  rcases Option.map_eq_some'.1 hmap with ⟨e, _, heq⟩
  rw [← heq]
  exact hcid

/-- C4.  Search ranking: search returns at most top_k results; with an
empty embedding map or an empty candidate list it returns no results;
otherwise the results are exactly the first top_k entries of the
stable descending sort of the candidates' similarity list, turned into
result records; and that sort is a permutation of the candidate
similarity list, is ordered by non-increasing similarity, and preserves
the original insertion order inside every group of equal similarities
(stability). -/
theorem search_ranking {E : Type} (getEmb : String → E) (cosSim : E → E → ℚ)
    (s : Store E) (q : String) (scope : Option (Option String))
    (top_k : Nat) :
    (search getEmb cosSim s q scope top_k).length ≤ top_k
    ∧ (Dict.isEmptyD s.embeddings = true →
        search getEmb cosSim s q scope top_k = [])
    ∧ (searchCandidateIds s Option.none = [] →
        search getEmb cosSim s q Option.none top_k = [])
    ∧ (∀ tp, searchCandidateIds s (some tp) = [] →
        search getEmb cosSim s q (some (some tp)) top_k = [])
    ∧ (Dict.isEmptyD s.embeddings = false →
        search getEmb cosSim s q Option.none top_k
          = ((sortDescBy (fun x => x.2)
              (searchSims cosSim (getEmb q) s
                (searchCandidateIds s Option.none))).take top_k).map
            (mkResult s)
        ∧ ∀ tp, search getEmb cosSim s q (some (some tp)) top_k
          = ((sortDescBy (fun x => x.2)
              (searchSims cosSim (getEmb q) s
                (searchCandidateIds s (some tp)))).take top_k).map
            (mkResult s))
    ∧ (∀ cands,
        (sortDescBy (fun x => x.2)
            (searchSims cosSim (getEmb q) s cands)).Perm
          (searchSims cosSim (getEmb q) s cands)
        ∧ (sortDescBy (fun x => x.2)
            (searchSims cosSim (getEmb q) s cands)).Pairwise
          (fun a b => b.2 ≤ a.2)
        ∧ ∀ v, (sortDescBy (fun x => x.2)
              (searchSims cosSim (getEmb q) s cands)).filter
              (fun x => decide (x.2 = v))
            = (searchSims cosSim (getEmb q) s cands).filter
              (fun x => decide (x.2 = v))) := by
  refine ⟨?_, ?_, ?_, ?_, ?_, ?_⟩
  · by_cases he : Dict.isEmptyD s.embeddings = true
    · rw [search, if_pos he]
      simp
    · rcases scope with _ | tgt
      · rw [search_unscoped_eq getEmb cosSim s q top_k he, searchFrom_eq]
        simp [List.length_take]
      · rcases tgt with _ | tp
        · rw [search_fail_eq]
          simp
        · rw [search_scoped_eq getEmb cosSim s q tp top_k he, searchFrom_eq]
          simp [List.length_take]
  · intro he
    rw [search, if_pos he]
  · intro hc
    by_cases he : Dict.isEmptyD s.embeddings = true
    · rw [search, if_pos he]
    · rw [search_unscoped_eq getEmb cosSim s q top_k he, hc, searchFrom]
      rfl
  · intro tp hc
    by_cases he : Dict.isEmptyD s.embeddings = true
    · rw [search, if_pos he]
    · rw [search_scoped_eq getEmb cosSim s q tp top_k he, hc, searchFrom]
      rfl
  · intro hf
    have he : ¬ Dict.isEmptyD s.embeddings = true := by
      rw [hf]
      exact Bool.false_ne_true
    exact ⟨by rw [search_unscoped_eq getEmb cosSim s q top_k he, searchFrom_eq],
      fun tp => by rw [search_scoped_eq getEmb cosSim s q tp top_k he,
        searchFrom_eq]⟩
  · intro cands
    exact ⟨sortDescBy_perm _ _, sortDescBy_pairwise _ _,
      fun v => sortDescBy_filter _ v _⟩

/-- An empty store and a store with an embedding but no chunk records,
used to exercise the empty-result branches of search. -/
def emptyStore : Store ℚ :=
  { embeddings := [], documents := [], file_metadata := [] }

def storeCE : Store ℚ :=
  { embeddings := [("a#0", (1 : ℚ))], documents := [], file_metadata := [] }

def embW : String → ℚ := fun _ => 2

def cosW : ℚ → ℚ → ℚ := fun _ b => b

theorem search_ranking_witness :
    (search embW cosW storeW "q" Option.none 5).length ≤ 5
    ∧ search embW cosW emptyStore "q" Option.none 5 = []
    ∧ search embW cosW storeCE "q" Option.none 5 = []
    ∧ search embW cosW storeCE "q" (some (some "b")) 5 = []
    ∧ search embW cosW storeW "q" Option.none 5
        = ((sortDescBy (fun x => x.2)
            (searchSims cosW (embW "q") storeW
              (searchCandidateIds storeW Option.none))).take 5).map
          (mkResult storeW)
    ∧ (sortDescBy (fun x => x.2)
        (searchSims cosW (embW "q") storeW ["a#0"])).Perm
        (searchSims cosW (embW "q") storeW ["a#0"]) :=
  ⟨(search_ranking embW cosW storeW "q" Option.none 5).1,
   (search_ranking embW cosW emptyStore "q" Option.none 5).2.1 rfl,
   (search_ranking embW cosW storeCE "q" Option.none 5).2.2.1 rfl,
   (search_ranking embW cosW storeCE "q" Option.none 5).2.2.2.1 "b" rfl,
   ((search_ranking embW cosW storeW "q" Option.none 5).2.2.2.2.1 rfl).1,
   ((search_ranking embW cosW storeW "q" Option.none 5).2.2.2.2.2 ["a#0"]).1⟩

theorem mem_candidateIds_scoped {E : Type} (s : Store E) (tp cid : String)
    (hnd : Dict.NodupKeys s.documents)
    (h : cid ∈ searchCandidateIds s (some tp)) :
    ∃ ch, Dict.find s.documents cid = some ch ∧ ch.file_path = tp := by
  rcases (Dict.mem_keys_iff _ _).1 h with ⟨ch, hm⟩
  rcases mem_filterD_owner hm with ⟨hmem, hp⟩
  exact ⟨ch, Dict.find_eq_of_mem_nodup hnd hmem, hp⟩

/-- C5.  Scoped search: when the store's chunk map is well-formed (no
duplicate keys, as in a real Python dict), every result of a search
scoped to a resolved path tp is owned by tp; and when scope resolution
failed (file not found), search returns the empty list instead of
raising. -/
theorem scoped_search {E : Type} (getEmb : String → E) (cosSim : E → E → ℚ)
    (s : Store E) (q : String) (top_k : Nat)
    (hnd : Dict.NodupKeys s.documents) :
    (∀ tp r, r ∈ search getEmb cosSim s q (some (some tp)) top_k →
      r.file_path = tp)
    ∧ ∀ k', search getEmb cosSim s q (some Option.none) k' = [] := by
  constructor
  · intro tp r hr
    by_cases he : Dict.isEmptyD s.embeddings = true
    · rw [search, if_pos he] at hr
      simp at hr
    · rw [search_scoped_eq getEmb cosSim s q tp top_k he, searchFrom_eq] at hr
      rcases List.mem_map.1 hr with ⟨pr, hpr, rfl⟩
      have hpr1 : pr ∈ sortDescBy (fun x => x.2)
          (searchSims cosSim (getEmb q) s (searchCandidateIds s (some tp))) :=
        List.take_subset _ _ hpr
      have hpr2 : pr ∈ searchSims cosSim (getEmb q) s
          (searchCandidateIds s (some tp)) :=
        (sortDescBy_perm _ _).mem_iff.1 hpr1
      have hc : pr.1 ∈ searchCandidateIds s (some tp) :=
        searchSims_mem _ _ _ _ _ hpr2
      rcases mem_candidateIds_scoped s tp pr.1 hnd hc with ⟨ch, hfind, hp⟩
      show ((Dict.find s.documents pr.1).getD ⟨"", 0, "", 0⟩).file_path = tp
      rw [hfind]
      exact hp
  · intro k'
    exact search_fail_eq getEmb cosSim s q k'

theorem scoped_search_witness :
    (search embW cosW storeW "q" (some (some "a")) 5
       = [⟨"a", 0, "old text", 8, 1, "a#0"⟩]
     ∧ SearchResult.file_path ⟨"a", 0, "old text", 8, 1, "a#0"⟩ = "a")
    ∧ search embW cosW storeW "q" (some Option.none) 5 = [] := by
  have h := scoped_search embW cosW storeW "q" 5 (by rw [Dict.NodupKeys]; decide)
  have heq : search embW cosW storeW "q" (some (some "a")) 5
      = [⟨"a", 0, "old text", 8, 1, "a#0"⟩] := by decide
  exact ⟨⟨heq, h.1 "a" ⟨"a", 0, "old text", 8, 1, "a#0"⟩
    (by rw [heq]; exact List.mem_singleton.mpr rfl)⟩, h.2 5⟩

/-! ## Claim C8: reranking with an empty query -/

theorem rerankAnnotate_empty (r : SearchResult) :
    rerankAnnotate ∅ r = ⟨r, (7 / 10 : ℚ) * r.similarity, 0⟩ := by
  rw [rerankAnnotate]
  simp

/-- C8.  Rerank with an empty or whitespace-only query: the division by
the number of query words is guarded, every returned record carries
keyword_score 0 and combined_score 0.7 times its similarity, the
returned list is ordered by non-increasing original similarity, and a
result list already sorted by descending similarity comes back in
unchanged order. -/
theorem rerank_empty_query (results : List SearchResult) (query : String)
    (hq : pyWords (pyLower query) = []) :
    (∀ x ∈ rerank_results results query,
       x.keyword_score = 0
       ∧ x.combined_score = (7 / 10 : ℚ) * x.base.similarity)
    ∧ (rerank_results results query).Pairwise
        (fun a b => b.base.similarity ≤ a.base.similarity)
    ∧ (results.Pairwise (fun a b => b.similarity ≤ a.similarity) →
        (rerank_results results query).map RerankedResult.base = results) := by
  have hrw : rerank_results results query
      = sortDescBy (fun x => x.combined_score)
          (results.map (rerankAnnotate ∅)) := by
    rw [rerank_results, hq]
    rfl
  have hmem : ∀ x, x ∈ rerank_results results query →
      x.keyword_score = 0
      ∧ x.combined_score = (7 / 10 : ℚ) * x.base.similarity := by
    intro x hx
    rw [hrw] at hx
    have hx' := (sortDescBy_perm _ _).mem_iff.1 hx
    rcases List.mem_map.1 hx' with ⟨r, _, rfl⟩
    rw [rerankAnnotate_empty]
    exact ⟨rfl, rfl⟩
  refine ⟨hmem, ?_, ?_⟩
  · have hp : (rerank_results results query).Pairwise
        (fun a b => b.combined_score ≤ a.combined_score) := by
      rw [hrw]
      exact sortDescBy_pairwise _ _
    refine hp.imp_of_mem ?_
    intro a b ha hb hab
    rw [(hmem a ha).2, (hmem b hb).2] at hab
    have h7 : (0 : ℚ) < 7 / 10 := by norm_num
    exact le_of_mul_le_mul_left hab h7
  · intro hsorted
    have hps : (results.map (rerankAnnotate ∅)).Pairwise
        (fun a b => b.combined_score ≤ a.combined_score) := by
      rw [List.pairwise_map]
      refine hsorted.imp ?_
      intro a b hab
      rw [rerankAnnotate_empty, rerankAnnotate_empty]
      have h7 : (0 : ℚ) ≤ 7 / 10 := by norm_num
      exact mul_le_mul_of_nonneg_left hab h7
    rw [hrw, sortDescBy_of_pairwise _ _ hps, List.map_map]
    have hid : RerankedResult.base ∘ rerankAnnotate ∅ = id := by
      funext r
      rw [Function.comp_apply, rerankAnnotate_empty]
      rfl
    rw [hid, List.map_id]

/-- Two results already sorted by descending similarity. -/
def rerankRs : List SearchResult :=
  [⟨"a", 0, "xx", 2, 2, "a#0"⟩, ⟨"a", 1, "yy", 2, 1, "a#1"⟩]

theorem rerank_empty_query_witness :
    (rerank_results rerankRs "").map RerankedResult.base = rerankRs :=
  (rerank_empty_query rerankRs "" (by decide)).2.2 (by decide)

/-! ## Claim C10: search results are copies -/

theorem Heap.get_set_ne (h : Heap) (a a' : Nat) (o : PyObj) (hne : a ≠ a') :
    (h.set a' o).get a = h.get a := by
  rcases h with ⟨cells, nxt⟩
  induction cells with
  | nil => rfl
  | cons p t ih =>
    by_cases hpa : p.1 = a'
    · have hpa2 : ¬ p.1 = a := fun he => hne (he ▸ hpa ▸ rfl)
      have hna : ¬ a' = a := fun he => hne he.symm
      simp only [Heap.set, List.map_cons, if_pos hpa, Heap.get, if_neg hna,
        if_neg hpa2]
      exact ih
    · by_cases hpa2 : p.1 = a
      · simp only [Heap.set, List.map_cons, if_neg hpa, Heap.get, if_pos hpa2]
      · simp only [Heap.set, List.map_cons, if_neg hpa, Heap.get, if_neg hpa2]
        exact ih

theorem Heap.get_append_ne (cells : List (Nat × PyObj)) (nxt nxt' b : Nat)
    (o : PyObj) (a : Nat) (hne : a ≠ b) :
    Heap.get ⟨cells ++ [(b, o)], nxt'⟩ a = Heap.get ⟨cells, nxt⟩ a := by
  induction cells with
  | nil =>
    have hba : ¬ b = a := fun he => hne he.symm
    simp only [List.nil_append, Heap.get, if_neg hba]
  | cons p t ih =>
    by_cases hpa : p.1 = a
    · simp only [List.cons_append, Heap.get, if_pos hpa]
    · simp only [List.cons_append, Heap.get, if_neg hpa]
      exact ih

theorem Heap.get_alloc_ne (h : Heap) (o : PyObj) (a : Nat) (hne : a ≠ h.next) :
    (h.alloc o).2.get a = h.get a := by
  rcases h with ⟨cells, nxt⟩
  exact Heap.get_append_ne cells nxt (nxt + 1) nxt o a hne

/-- One step of the result-building fold of search. -/
def buildStep (documentRefs : Dict Nat) (acc : List Nat × Heap)
    (p : String × ℚ) : List Nat × Heap :=
  match Dict.find documentRefs p.1 with
  | Option.none => acc
  | some addr =>
    match Heap.get acc.2 addr with
    | Option.none => acc
    | some obj =>
      let copy := { obj with similarity := some p.2, chunk_id := some p.1 }
      let ah := Heap.alloc acc.2 copy
      (acc.1 ++ [ah.1], ah.2)

theorem buildResults_eq_foldl (documentRefs : Dict Nat)
    (sims : List (String × ℚ)) (h : Heap) :
    buildResults documentRefs sims h
      = sims.foldl (buildStep documentRefs) ([], h) := rfl

theorem buildStep_spec (documentRefs : Dict Nat) (acc : List Nat × Heap)
    (p : String × ℚ) :
    acc.2.next ≤ (buildStep documentRefs acc p).2.next
    ∧ (∀ a, a < acc.2.next →
        (buildStep documentRefs acc p).2.get a = acc.2.get a)
    ∧ (∀ r, r ∈ (buildStep documentRefs acc p).1 →
        r ∈ acc.1 ∨ acc.2.next ≤ r) := by
  rw [buildStep]
  cases Dict.find documentRefs p.1 with
  | none => exact ⟨le_refl _, fun a _ => rfl, fun r hr => Or.inl hr⟩
  | some addr =>
    dsimp only
    cases Heap.get acc.2 addr with
    | none => exact ⟨le_refl _, fun a _ => rfl, fun r hr => Or.inl hr⟩
    | some obj =>
      refine ⟨Nat.le_succ _,
        fun a ha => Heap.get_alloc_ne acc.2 _ a (Nat.ne_of_lt ha),
        fun r hr => ?_⟩
      rcases List.mem_append.1 hr with hr | hr
      · exact Or.inl hr
      · rcases List.mem_singleton.1 hr with rfl
        exact Or.inr (le_refl _)

theorem buildResults_fold_spec (documentRefs : Dict Nat)
    (sims : List (String × ℚ)) (acc : List Nat × Heap) :
    acc.2.next ≤ (sims.foldl (buildStep documentRefs) acc).2.next
    ∧ (∀ a, a < acc.2.next →
        (sims.foldl (buildStep documentRefs) acc).2.get a = acc.2.get a)
    ∧ (∀ r, r ∈ (sims.foldl (buildStep documentRefs) acc).1 →
        r ∈ acc.1 ∨ acc.2.next ≤ r) := by
  induction sims generalizing acc with
  | nil => exact ⟨le_refl _, fun a _ => rfl, fun r hr => Or.inl hr⟩
  | cons p t ih =>
    rw [List.foldl_cons]
    rcases buildStep_spec documentRefs acc p with ⟨hn, hg, hm⟩
    rcases ih (buildStep documentRefs acc p) with ⟨hn', hg', hm'⟩
    refine ⟨le_trans hn hn', ?_, ?_⟩
    · intro a ha
      rw [hg' a (lt_of_lt_of_le ha hn), hg a ha]
    · intro r hr
      rcases hm' r hr with hr' | hr'
      · rcases hm r hr' with hr'' | hr''
        · exact Or.inl hr''
        · exact Or.inr hr''
      · exact Or.inr (le_trans hn hr')

theorem rerankStep_get_ne (query_words : Finset String) (hh : Heap)
    (r a : Nat) (hne : a ≠ r) :
    (rerankStep query_words hh r).get a = hh.get a := by
  rw [rerankStep]
  cases Heap.get hh r with
  | none => rfl
  | some obj => exact Heap.get_set_ne hh a r _ hne

theorem rerankHeapWrites_get_notMem (query_words : Finset String)
    (results : List Nat) (h : Heap) (a : Nat) (ha : a ∉ results) :
    (rerankHeapWrites query_words results h).get a = h.get a := by
  induction results generalizing h with
  | nil => rfl
  | cons r t ih =>
    rw [List.mem_cons] at ha
    have h1 : a ≠ r := fun he => ha (Or.inl he)
    have h2 : a ∉ t := fun hm => ha (Or.inr hm)
    rw [rerankHeapWrites, List.foldl_cons]
    rw [show t.foldl (rerankStep query_words) (rerankStep query_words h r)
        = rerankHeapWrites query_words t (rerankStep query_words h r)
      from rfl]
    rw [ih _ h2]
    exact rerankStep_get_ne query_words h r a h1

/-- C10.  Frame property of search result construction: search builds
its result records as copies (fresh heap cells) of the stored chunk
records, so the in-place field additions rerank_results performs on
those results never change a cell that existed before the search; in
particular every cell the store's documents map points to is unchanged. -/
theorem search_results_are_copies (documentRefs : Dict Nat)
    (sims : List (String × ℚ)) (query : String) (h : Heap) (a : Nat)
    (ha : a < h.next) :
    (rerankHeapWrites (pyWords (pyLower query)).toFinset
        (buildResults documentRefs sims h).1
        (buildResults documentRefs sims h).2).get a = h.get a := by
  rw [buildResults_eq_foldl]
  rcases buildResults_fold_spec documentRefs sims ([], h) with ⟨_, hg, hm⟩
  have hnot : a ∉ (sims.foldl (buildStep documentRefs) ([], h)).1 := by
    intro hmem
    rcases hm a hmem with hmem' | hmem'
    · simp at hmem'
    · exact absurd ha (not_lt_of_le hmem')
  rw [rerankHeapWrites_get_notMem _ _ _ a hnot]
  exact hg a ha

/-- A one-cell heap whose only object is referenced by the store. -/
def heapW : Heap :=
  ⟨[(0, ⟨"a", 0, "old text", 8, Option.none, Option.none, Option.none,
    Option.none⟩)], 1⟩

theorem search_results_are_copies_witness :
    (rerankHeapWrites (pyWords (pyLower "q")).toFinset
        (buildResults [("a#0", 0)] [("a#0", (1 : ℚ))] heapW).1
        (buildResults [("a#0", 0)] [("a#0", (1 : ℚ))] heapW).2).get 0
      = heapW.get 0 :=
  search_results_are_copies [("a#0", 0)] [("a#0", (1 : ℚ))] "q" heapW 0
    (by decide)

/-! ## Claims C6 and C7: the chunking loop -/

theorem pyRfindDot_cases (cs : List Char) (a b : Int) :
    pyRfindDot cs a b = -1
    ∨ ((pyAdjust cs.length a : Int) ≤ pyRfindDot cs a b
        ∧ pyRfindDot cs a b < (pyAdjust cs.length b : Int)) := by
  rw [pyRfindDot]
  cases hl : ((List.range (pyAdjust cs.length b)).filter
      (fun i => decide (pyAdjust cs.length a ≤ i)
        && (cs.getD i ' ' == '.'))).getLast? with
  | none => exact Or.inl rfl
  | some i =>
    right
    dsimp only
    have hmem := List.mem_of_mem_getLast? hl
    rcases List.mem_filter.1 hmem with ⟨hrange, hdec⟩
    simp only [Bool.and_eq_true] at hdec
    have h1' : pyAdjust cs.length a ≤ i := of_decide_eq_true hdec.1
    have h2' : i < pyAdjust cs.length b := List.mem_range.1 hrange
    constructor
    · exact_mod_cast h1'
    · exact_mod_cast h2'

theorem pyAdjust_le_of_nonneg (len : Nat) (i : Int) (hi : 0 ≤ i) :
    (pyAdjust len i : Int) ≤ i := by
  rw [pyAdjust, if_neg (not_lt.2 hi)]
  have h1 := Nat.min_le_left i.toNat len
  omega

theorem chunkEnd_bounds (text : List Char) (chunk_size start overlap : Int)
    (hs : 0 ≤ start) (hov : 0 ≤ overlap) (hcs : overlap + 99 ≤ chunk_size) :
    start + chunk_size - 98 ≤ chunkEnd text chunk_size start
    ∧ chunkEnd text chunk_size start ≤ start + chunk_size := by
  rw [chunkEnd]
  by_cases hlt : start + chunk_size < (text.length : Int)
  · rw [if_pos hlt]
    by_cases hse : pyRfindDot text start (start + chunk_size)
        > start + chunk_size - 100
    · rw [if_pos hse]
      rcases pyRfindDot_cases text start (start + chunk_size) with h1 | ⟨_, h2⟩
      · rw [h1] at hse
        omega
      · have hadj : (pyAdjust text.length (start + chunk_size) : Int)
            ≤ start + chunk_size :=
          pyAdjust_le_of_nonneg text.length (start + chunk_size) (by omega)
        omega
    · rw [if_neg hse]
      omega
  · rw [if_neg hlt]
    omega

theorem chunkLoop_some_of_fuel (text : List Char) (chunk_size overlap : Int)
    (hov : 0 ≤ overlap) (hcs : overlap + 99 ≤ chunk_size) :
    ∀ (k : Nat) (start : Int) (chunks : List (List Char))
      (windows : List (Int × Int)),
      0 ≤ start → (text.length : Int) ≤ start + (k : Int) →
      (chunkLoop text chunk_size overlap (k + 1) start chunks windows).isSome
      := by
  intro k
  induction k with
  | zero =>
    intro start chunks windows hs hk
    rw [chunkLoop]
    rw [if_neg (not_lt.2 (by omega))]
    rfl
  | succ k ih =>
    intro start chunks windows hs hk
    rw [chunkLoop]
    by_cases hlt : start < (text.length : Int)
    · rw [if_pos hlt]
      have hb := chunkEnd_bounds text chunk_size start overlap hs hov hcs
      exact ih (chunkEnd text chunk_size start - overlap) _ _
        (by omega) (by omega)
    · rw [if_neg hlt]
      rfl

/-- C6 (amended).  The chunking loop terminates for every text whenever
the overlap is non-negative and the chunk size exceeds the overlap by
at least 99 (so that the sentence-boundary back-off, which may move the
window end up to 98 characters ahead of the raw window end, still
leaves the next window start strictly beyond the current one).  The
arguments used by add_document, 1000 and 200, satisfy this. -/
theorem chunk_loop_terminates (text : List Char) (chunk_size overlap : Int)
    (hov : 0 ≤ overlap) (hcs : overlap + 99 ≤ chunk_size) :
    ChunkLoopTerminates text chunk_size overlap := by
  refine ⟨text.length + 1, ?_⟩
  exact chunkLoop_some_of_fuel text chunk_size overlap hov hcs text.length 0
    [] [] le_rfl (by omega)

theorem chunk_loop_terminates_witness :
    ChunkLoopTerminates (List.replicate 170 'a') 1000 200 :=
  chunk_loop_terminates (List.replicate 170 'a') 1000 200 (by norm_num)
    (by norm_num)

theorem chunkLoop_ab_stuck : ∀ (n : Nat) (c : List (List Char))
    (w : List (Int × Int)),
    chunkLoop ['a', 'b'] 1 1 n (-1) c w = Option.none := by
  intro n
  induction n with
  | zero =>
    intro c w
    rfl
  | succ n ih =>
    intro c w
    rw [chunkLoop]
    rw [if_pos (by decide : (-1 : Int) < ((['a', 'b'].length : Nat) : Int))]
    simp only [show chunkEnd ['a', 'b'] 1 (-1) = 0 from by decide,
      show pyStrip (pySlice ['a', 'b'] (-1) 0) = ([] : List Char) from by
        decide,
      List.isEmpty_nil, if_true, show (0 : Int) - 1 = -1 from by decide]
    exact ih c (w ++ [(-1, 0)])

/-- C6 counterexample.  With chunk_size 1 and overlap 1 on the
two-character text "ab" (longer than the chunk size, so the loop runs),
the window start becomes -1 after the first iteration because rfind
returns -1 and -1 passes the sentence-boundary test -1 > start +
chunk_size - 100, and then every later iteration recomputes end 0 and
start -1: the loop never exits, for any amount of fuel.  So the
chunking loop is not total in its arguments; termination fails unless
the parameters are restricted. -/
theorem chunk_loop_nonterminating : ¬ ChunkLoopTerminates ['a', 'b'] 1 1 := by
  intro h
  rw [ChunkLoopTerminates] at h
  rcases h with ⟨n, hn⟩
  have h0 : chunkLoop ['a', 'b'] 1 1 n 0 [] [] = Option.none := by
    cases n with
    | zero => rfl
    | succ m =>
      rw [chunkLoop]
      rw [if_pos (by decide : (0 : Int) < ((['a', 'b'].length : Nat) : Int))]
      simp only [show chunkEnd ['a', 'b'] 1 0 = 0 from by decide,
        show pyStrip (pySlice ['a', 'b'] 0 0) = ([] : List Char) from by
          decide,
        List.isEmpty_nil, if_true, show (0 : Int) - 1 = -1 from by decide]
      exact chunkLoop_ab_stuck m [] [(0, 0)]
  rw [h0] at hn
  simp at hn

/-- Per-window sanity bounds of the chunking loop in the parameter
range of chunk_loop_terminates: the start is non-negative and the end
lies within 98 characters below the raw window end. -/
def WindowOK (chunk_size : Int) (w : Int × Int) : Prop :=
  0 ≤ w.1 ∧ w.1 + chunk_size - 98 ≤ w.2 ∧ w.2 ≤ w.1 + chunk_size

theorem chain'_get? {α : Type} (R : α → α → Prop) (l : List α)
    (h : List.Chain' R l) (i : Nat) (a b : α)
    (ha : l.get? i = some a) (hb : l.get? (i + 1) = some b) : R a b := by
  induction l generalizing i with
  | nil => simp at ha
  | cons x t ih =>
    cases i with
    | zero =>
      rw [List.get?_cons_zero] at ha
      injection ha with ha
      subst ha
      cases t with
      | nil => simp at hb
      | cons y t' =>
        rw [List.get?_cons_succ, List.get?_cons_zero] at hb
        injection hb with hb
        subst hb
        exact (List.chain'_cons.1 h).1
    | succ i =>
      rw [List.get?_cons_succ] at ha hb
      exact ih h.tail i ha hb

theorem chunkLoop_windows_spec (text : List Char) (chunk_size overlap : Int)
    (hov : 0 ≤ overlap) (hcs : overlap + 99 ≤ chunk_size) :
    ∀ (fuel : Nat) (start : Int) (chunks : List (List Char))
      (windows : List (Int × Int))
      (res : List (List Char) × List (Int × Int)),
      chunkLoop text chunk_size overlap fuel start chunks windows = some res →
      0 ≤ start →
      (∀ w ∈ windows, WindowOK chunk_size w) →
      List.Chain' (fun w1 w2 => w2.1 = w1.2 - overlap) windows →
      (∀ w ∈ windows.getLast?, w.2 - overlap = start) →
      (∀ c ∈ chunks, ∃ w, w ∈ windows ∧ c = pyStrip (pySlice text w.1 w.2)
        ∧ c ≠ []) →
      (∀ w ∈ res.2, WindowOK chunk_size w)
      ∧ List.Chain' (fun w1 w2 => w2.1 = w1.2 - overlap) res.2
      ∧ (∀ c ∈ res.1, ∃ w, w ∈ res.2 ∧ c = pyStrip (pySlice text w.1 w.2)
          ∧ c ≠ []) := by
  intro fuel
  induction fuel with
  | zero =>
    intro start chunks windows res heq
    rw [chunkLoop] at heq
    exact absurd heq (by simp)
  | succ fuel ih =>
    intro start chunks windows res heq hs hW hC hL hch
    rw [chunkLoop] at heq
    by_cases hlt : start < (text.length : Int)
    · rw [if_pos hlt] at heq
      have hb := chunkEnd_bounds text chunk_size start overlap hs hov hcs
      refine ih (chunkEnd text chunk_size start - overlap) _ _ res heq
        (by omega) ?_ ?_ ?_ ?_
      · intro w hw
        rcases List.mem_append.1 hw with hw | hw
        · exact hW w hw
        · rcases List.mem_singleton.1 hw with rfl
          exact ⟨hs, hb.1, hb.2⟩
      · rw [List.chain'_append]
        refine ⟨hC, List.chain'_singleton _, ?_⟩
        intro x hx y hy
        have hx' : x.2 - overlap = start := hL x hx
        have hy' : y = (start, chunkEnd text chunk_size start) := by
          have hmem := Option.mem_def.1 hy
          rw [List.head?_cons] at hmem
          injection hmem with h2
          exact h2.symm
        rw [hy']
        exact hx'.symm
      · intro w hw
        rw [List.getLast?_concat] at hw
        have hmem := Option.mem_def.1 hw
        injection hmem with h2
        rw [← h2]
      · intro c hc
        by_cases hemp : (pyStrip (pySlice text start
            (chunkEnd text chunk_size start))).isEmpty = true
        · rw [if_pos hemp] at hc
          rcases hch c hc with ⟨w, hw, hcw, hne⟩
          exact ⟨w, List.mem_append_left _ hw, hcw, hne⟩
        · rw [if_neg hemp] at hc
          rcases List.mem_append.1 hc with hc | hc
          · rcases hch c hc with ⟨w, hw, hcw, hne⟩
            exact ⟨w, List.mem_append_left _ hw, hcw, hne⟩
          · rcases List.mem_singleton.1 hc with rfl
            refine ⟨(start, chunkEnd text chunk_size start),
              List.mem_append_right _ (List.mem_singleton.2 rfl), rfl, ?_⟩
            intro hnil
            apply hemp
            rw [hnil]
            rfl
    · rw [if_neg hlt] at heq
      injection heq with h
      subst h
      exact ⟨hW, hC, hch⟩

/-- C7 (amended).  Window overlap: in the parameter range of
chunk_loop_terminates (overlap non-negative, chunk_size at least
overlap + 99), for any two consecutive windows (w1.1, w1.2) and
(w2.1, w2.2) of the chunking loop the next window starts exactly
overlap characters before the current window end (w2.1 = w1.2 -
overlap, whether or not the end was moved back to a period), and when
the current window does not extend past the end of the text the two
windows both cover the overlap source positions w1.2 - overlap ..
w1.2 - 1: window 1 covers them since w1.1 ≤ w1.2 - overlap and they
lie below min w1.2 len = w1.2, window 2 since they start at w2.1 and
lie below min w2.2 len.  In the tail, where a window extends past the
end of the text, the following chunks can be shorter than overlap and
share fewer than overlap characters (see the counterexample).  Every
emitted chunk is the stripped slice of one of the windows. -/
theorem chunk_overlap_invariant (text : List Char) (chunk_size overlap : Int)
    (hov : 0 ≤ overlap) (hcs : overlap + 99 ≤ chunk_size) :
    (∀ i w1 w2,
       (chunkTraceL text chunk_size overlap).get? i = some w1 →
       (chunkTraceL text chunk_size overlap).get? (i + 1) = some w2 →
       w2.1 = w1.2 - overlap
       ∧ w1.1 < w2.1 ∧ w1.2 < w2.2
       ∧ (w1.2 ≤ (text.length : Int) →
           w1.1 ≤ w1.2 - overlap
           ∧ w1.2 ≤ min w2.2 (text.length : Int)))
    ∧ (∀ c ∈ chunkTextL text chunk_size overlap,
        chunk_size < (text.length : Int) →
        ∃ w, w ∈ chunkTraceL text chunk_size overlap
          ∧ c = pyStrip (pySlice text w.1 w.2) ∧ c ≠ []) := by
  have hspec : (∀ w ∈ chunkTraceL text chunk_size overlap,
        WindowOK chunk_size w)
      ∧ List.Chain' (fun w1 w2 => w2.1 = w1.2 - overlap)
          (chunkTraceL text chunk_size overlap)
      ∧ (chunk_size < (text.length : Int) →
          ∀ c ∈ chunkTextL text chunk_size overlap,
            ∃ w, w ∈ chunkTraceL text chunk_size overlap
              ∧ c = pyStrip (pySlice text w.1 w.2) ∧ c ≠ []) := by
    by_cases hlen : (text.length : Int) ≤ chunk_size
    · rw [chunkTraceL, if_pos hlen]
      refine ⟨by simp, List.chain'_nil, ?_⟩
      intro hlt
      omega
    · rw [chunkTraceL, chunkTextL, if_neg hlen, if_neg hlen]
      cases hloop : chunkLoop text chunk_size overlap (text.length + 1) 0 []
          [] with
      | none => exact ⟨by simp, List.chain'_nil, by simp⟩
      | some r =>
        have h := chunkLoop_windows_spec text chunk_size overlap hov hcs
          (text.length + 1) 0 [] [] r hloop le_rfl (by simp)
          List.chain'_nil (by simp) (by simp)
        exact ⟨h.1, h.2.1, fun _ => h.2.2⟩
  constructor
  · intro i w1 w2 h1 h2
    have hR : w2.1 = w1.2 - overlap :=
      chain'_get? _ _ hspec.2.1 i w1 w2 h1 h2
    rcases hspec.1 w1 (List.get?_mem h1) with ⟨ha1, hb1, hc1⟩
    rcases hspec.1 w2 (List.get?_mem h2) with ⟨ha2, hb2, hc2⟩
    refine ⟨hR, by omega, by omega, fun hle => ⟨by omega, ?_⟩⟩
    exact le_min (by omega) hle
  · intro c hc hlt
    exact hspec.2.2 hlt c hc

theorem chunk_overlap_invariant_witness :
    (chunkTraceL (List.replicate 100 'a') 99 0).get? 0 = some (0, 99)
    ∧ (99 : Int) = 99 - 0
    ∧ (99 : Int) ≤ min 198 ((List.replicate 100 'a').length : Int) := by
  have h := (chunk_overlap_invariant (List.replicate 100 'a') 99 0
    (by norm_num) (by norm_num)).1 0 ((0 : Int), (99 : Int))
    ((99 : Int), (198 : Int)) (by decide) (by decide)
  exact ⟨by decide, h.1, (h.2.2.2 (by decide)).2⟩

/-- C7 counterexample.  On a text of 170 letters with no periods, with
chunk_size 100 and overlap 20, the loop emits the windows (0, 100),
(80, 180) and (160, 260) and the chunks of lengths 100, 90 and 10: no
window end was ever moved back to a period (every end equals start +
chunk_size, as the fourth conjunct shows), the text is longer than the
chunk size, yet the last two chunks cover the source regions 80..169
and 160..169, whose intersection has only min(180, 170) - 160 = 10
positions, and the last chunk has only 10 characters in total — fewer
than the overlap of 20.  Consecutive chunks therefore do not always
share at least overlap characters of the original text, even away from
sentence-boundary adjustments. -/
theorem chunk_overlap_counterexample :
    100 < (List.replicate 170 'a').length
    ∧ chunkTraceL (List.replicate 170 'a') 100 20
      = [(0, 100), (80, 180), (160, 260)]
    ∧ chunkTextL (List.replicate 170 'a') 100 20
      = [List.replicate 100 'a', List.replicate 90 'a',
         List.replicate 10 'a']
    ∧ (∀ w ∈ chunkTraceL (List.replicate 170 'a') 100 20, w.2 = w.1 + 100)
    ∧ (List.replicate 10 'a').length < 20
    ∧ min (180 : Int) 170 - 160 = 10 := by
  refine ⟨by norm_num, by decide, by decide, by decide, by norm_num, by decide⟩
